import Mathlib

/-!
Verification of the core pipeline of `analyze_hotspots.py` (a git-repository
hotspot analyzer).  Python strings are modelled as `List Char`, Python `dict`s
as insertion-ordered association lists, Python ints as `Int`, and Python
floats as `ℚ` (idealized real arithmetic; the source's float rounding noise is
not modelled).  Fallible code (operations that can raise) returns `Option`.
-/

/-- Python strings are modelled as lists of characters. -/
abbrev PyStr := List Char

/-- Characters treated as whitespace by Python's `str.strip()` (ASCII subset). -/
def isPySpace (c : Char) : Bool :=
  c = ' ' || c = '\t' || c = '\n' || c = '\r' || c = '\x0b' || c = '\x0c'

/-- Model of Python `str.strip()`: drop whitespace from both ends. -/
def pyStrip (s : PyStr) : PyStr :=
  ((s.dropWhile isPySpace).reverse.dropWhile isPySpace).reverse

/-- Model of Python `str.lower()` (ASCII letters; the paths and patterns in
this development are ASCII). -/
def pyLower (s : PyStr) : PyStr := s.map Char.toLower

/-- Model of Python `str.split(sep)` for a one-character separator with no
maxsplit: every occurrence splits, empty pieces are kept, and the result is
never empty. -/
def splitChar (sep : Char) : PyStr → List PyStr
  | [] => [[]]
  | c :: t =>
    if c = sep then [] :: splitChar sep t
    else
      match splitChar sep t with
      | [] => [[c]]
      | h :: r => (c :: h) :: r

/-- Model of Python `sep.join(pieces)` for the one-character separator case. -/
def joinChar (sep : Char) : List PyStr → PyStr
  | [] => []
  | [x] => x
  | x :: y :: r => x ++ sep :: joinChar sep (y :: r)

theorem splitChar_ne_nil (sep : Char) (s : PyStr) : splitChar sep s ≠ [] := by
  cases s with
  | nil => simp [splitChar]
  | cons c t =>
    simp only [splitChar]
    split
    · simp
    · split <;> simp

/-- `join` is a left inverse of `split`, as for Python's `str.split`/`str.join`. -/
theorem joinChar_splitChar (sep : Char) (s : PyStr) :
    joinChar sep (splitChar sep s) = s := by
  induction s with
  | nil => simp [splitChar, joinChar]
  | cons c t ih =>
    simp only [splitChar]
    split
    · rename_i hc
      subst hc
      cases h : splitChar c t with
      | nil => exact absurd h (splitChar_ne_nil c t)
      | cons h' r =>
        rw [h] at ih
        simp [joinChar, ih]
    · cases h : splitChar sep t with
      | nil => exact absurd h (splitChar_ne_nil sep t)
      | cons h' r =>
        rw [h] at ih
        cases r with
        | nil => simpa [joinChar] using congrArg (c :: ·) ih
        | cons a b => simpa [joinChar] using congrArg (c :: ·) ih

/-- Model of Python `str.split(sep, maxsplit)` for a one-character separator:
at most `n` splits are performed, the remainder stays in the last piece. -/
def pySplitMax (sep : Char) : Nat → PyStr → List PyStr
  | _, [] => [[]]
  | 0, l => [l]
  | n + 1, c :: t =>
    if c = sep then [] :: pySplitMax sep n t
    else
      match pySplitMax sep (n + 1) t with
      | [] => [[c]]
      | h :: r => (c :: h) :: r

/-- Model of Python `int(s)`: optional surrounding whitespace, optional sign,
then at least one ASCII digit.  `none` models the `ValueError` raised on any
other input. -/
def pyInt (l : PyStr) : Option Int :=
  let s := pyStrip l
  let signDigits : Int × PyStr :=
    match s with
    | '-' :: t => (-1, t)
    | '+' :: t => (1, t)
    | t => (1, t)
  let ds := signDigits.2
  if ds ≠ [] ∧ ds.all Char.isDigit then
    some (signDigits.1 * ds.foldl (fun acc c => 10 * acc + ((c.toNat : Int) - 48)) 0)
  else none

/-!
Model of Python's `fnmatch.fnmatch` on POSIX (where `os.path.normcase` is the
identity): a shell glob is translated and matched against the whole name.
`*` matches any character sequence (including `/`), `?` any single character,
and `[...]`/`[!...]` a character class with `a-b` ranges; a `]` immediately
after the opening `[` (or after `[!`) is a literal member, a reversed range
matches nothing, and an unterminated `[` is a literal `[` — all following
CPython's `fnmatch.translate`.  The pattern is first parsed into tokens, then
matched.
-/

/-- One unit of a glob pattern. -/
inductive GlobTok where
  | star : GlobTok
  | anyChar : GlobTok
  | cls (negated : Bool) (content : PyStr) : GlobTok
  | lit (c : Char) : GlobTok
deriving DecidableEq

/-- Split a bracket-class body at the first closing `]`.  Returns the content
before it and the rest of the pattern after it, or `none` if unterminated. -/
def findClose : PyStr → Option (PyStr × PyStr)
  | [] => none
  | c :: t =>
    if c = ']' then some ([], t)
    else (findClose t).map (fun p => (c :: p.1, p.2))

theorem findClose_length {l : PyStr} {p : PyStr × PyStr} (h : findClose l = some p) :
    p.2.length < l.length := by
  induction l generalizing p with
  | nil => simp [findClose] at h
  | cons c t ih =>
    simp only [findClose] at h
    split at h
    · cases h
      simp
    · rw [Option.map_eq_some'] at h
      obtain ⟨q, hq, he⟩ := h
      have := ih hq
      cases he
      simpa using Nat.lt_succ_of_lt this

/-- Parse the body of a `[...]` class (the part after the opening `[`),
following CPython `fnmatch.translate`: an optional leading `!` negates, and a
`]` in the first content position is a literal member. -/
def parseBracket : PyStr → Option (Bool × PyStr × PyStr)
  | '!' :: ']' :: t => (findClose t).map (fun p => (true, ']' :: p.1, p.2))
  | '!' :: t => (findClose t).map (fun p => (true, p.1, p.2))
  | ']' :: t => (findClose t).map (fun p => (false, ']' :: p.1, p.2))
  | t => (findClose t).map (fun p => (false, p.1, p.2))

theorem parseBracket_length {l : PyStr} {r : Bool × PyStr × PyStr}
    (h : parseBracket l = some r) : r.2.2.length < l.length + 1 := by
  unfold parseBracket at h
  split at h <;>
  · rw [Option.map_eq_some'] at h
    obtain ⟨p, hp, he⟩ := h
    have := findClose_length hp
    cases he
    simp only [List.length_cons] at *
    omega

/-- Turn a glob pattern string into its token sequence. -/
def tokenize : PyStr → List GlobTok
  | [] => []
  | '*' :: t => .star :: tokenize t
  | '?' :: t => .anyChar :: tokenize t
  | '[' :: t =>
    match hp : parseBracket t with
    | some (neg, content, rest) => .cls neg content :: tokenize rest
    | none => .lit '[' :: tokenize t
  | c :: t => .lit c :: tokenize t
termination_by l => l.length
decreasing_by
  all_goals simp_all only [List.length_cons]
  all_goals first
    | omega
    | exact parseBracket_length (by assumption)

/-- Split a class body into CPython `fnmatch.translate` chunks.  `pre` holds
the current chunk reversed; `skip` counts leading characters that may not end
a chunk (1 at the start of the body, 2 right after each splitting `-`,
mirroring translate's `k = i+1` / `k = k+3` hyphen search). -/
def chunkLoop : PyStr → Nat → PyStr → List PyStr
  | pre, _, [] => [pre.reverse]
  | pre, n + 1, c :: t => chunkLoop (c :: pre) n t
  | pre, 0, c :: t =>
    if c = '-' then pre.reverse :: chunkLoop [] 2 t
    else chunkLoop (c :: pre) 0 t

/-- If translate's final chunk is empty (body ends in a splitting `-`), the
hyphen becomes a literal appended to the previous chunk. -/
def fixFinal (chunks : List PyStr) : List PyStr :=
  match chunks.reverse with
  | [] :: u :: rest => ((u ++ ['-']) :: rest).reverse
  | _ => chunks

/-- Translate's empty-range removal: right to left, a junction whose range is
reversed is dropped together with its two endpoint characters, merging the
two chunks. -/
def pruneChunks : List PyStr → List PyStr :=
  List.foldr
    (fun chunk acc =>
      match acc with
      | [] => [chunk]
      | nxt :: rest =>
        if nxt.headD '\x00' < chunk.getLastD '\x00' then
          (chunk.dropLast ++ nxt.drop 1) :: rest
        else chunk :: nxt :: rest)
    []

/-- Match a character against pruned chunks: within a chunk every character is
a literal member, and each junction between chunks is the range from the
previous chunk's last character to the next chunk's first character (which
the junction consumes). -/
def chunksMatch : List PyStr → Char → Bool
  | [], _ => false
  | [u], c => u.contains c
  | u :: v :: rest, c =>
    if u = [] then (c = '-') || chunksMatch (v :: rest) c
    else
      u.dropLast.contains c ||
      (u.getLastD '\x00' ≤ c && c ≤ v.headD '\x00') ||
      chunksMatch (v.drop 1 :: rest) c
termination_by l _ => l.length
decreasing_by all_goals simp_arith

/-- Membership of `c` in the class `[content]` (`[!content]` when `negated`),
following CPython `fnmatch.translate`: chunk, fix a trailing hyphen, prune
empty ranges; a body pruned to nothing matches nothing (or, negated,
everything). -/
def classMatch (negated : Bool) (content : PyStr) (c : Char) : Bool :=
  let pruned := pruneChunks (fixFinal (chunkLoop [] 1 content))
  if pruned = [[]] then negated
  else if negated then !chunksMatch pruned c
  else chunksMatch pruned c

/-- Match a token sequence against a whole string. -/
def globMatch : List GlobTok → PyStr → Bool
  | [], [] => true
  | [], _ :: _ => false
  | .star :: p, s =>
    globMatch p s ||
      match s with
      | [] => false
      | _ :: s' => globMatch (.star :: p) s'
  | .anyChar :: p, _ :: s => globMatch p s
  | .anyChar :: _, [] => false
  | .lit a :: p, c :: s => a = c && globMatch p s
  | .lit _ :: _, [] => false
  | .cls neg content :: p, c :: s => classMatch neg content c && globMatch p s
  | .cls _ _ :: _, [] => false
termination_by p s => (p.length, s.length)
decreasing_by all_goals simp_all [Prod.lex_iff]

/-- Model of `fnmatch.fnmatch(name, pat)` on POSIX, where `os.path.normcase`
is the identity. -/
def fnmatch (name pat : PyStr) : Bool :=
  globMatch (tokenize pat) name

/-- Model of Python `str.rstrip(chars)` for the `'/*'` character set used by
`should_exclude`: drop every trailing `/` or `*`. -/
def pyRstripSlashStar (s : PyStr) : PyStr :=
  (s.reverse.dropWhile (fun c => c = '/' || c = '*')).reverse

/-- The inner `for i, part in enumerate(parts)` loop of `should_exclude`,
expressed on the list of remaining segments: at each split point either the
single segment matches the pattern with trailing `/*` stripped, or the
`/`-joined suffix starting there matches the pattern. -/
def segmentHits (pl : PyStr) : List PyStr → Bool
  | [] => false
  | part :: rest =>
    fnmatch part (pyRstripSlashStar pl) ||
    fnmatch (joinChar '/' (part :: rest)) pl ||
    segmentHits pl rest

/-- Model of `should_exclude(filepath, exclusion_patterns)` from
`analyze_hotspots.py`: case-insensitive glob matching of the full path, the
full path prefixed with `*/`, and — when the path contains a `/` — every
segment (against the pattern with trailing `/*` stripped) and every segment
suffix. -/
def should_exclude (filepath : PyStr) (exclusion_patterns : List PyStr) : Bool :=
  let filepath_lower := pyLower filepath
  exclusion_patterns.any (fun pattern =>
    let pattern_lower := pyLower pattern
    fnmatch filepath_lower pattern_lower ||
    fnmatch filepath_lower ('*' :: '/' :: pattern_lower) ||
    (if filepath.contains '/' then
      segmentHits pattern_lower (splitChar '/' filepath_lower)
    else false))

/-!
Specification-side formulation of the Pattern Matcher (§4.1 of the spec),
written from the spec's words: a path is excluded iff some pattern matches
under rule 1 (full path as a glob), rule 2 (full path prefixed with `*/`),
or rule 3 (at some path-segment split point, the single segment matches the
pattern with trailing `/*` stripped, or the suffix of the path starting at
that segment matches the pattern as a glob).  The spec states rule 3 without
restriction; `specRule3` is that unrestricted form.
-/

/-- Spec rule 1: the pattern matches the full (lowered) path as a glob. -/
def specRule1 (fp pat : PyStr) : Prop :=
  fnmatch (pyLower fp) (pyLower pat) = true

/-- Spec rule 2: the pattern matches the full path when implicitly prefixed
with `*/`. -/
def specRule2 (fp pat : PyStr) : Prop :=
  fnmatch (pyLower fp) ('*' :: '/' :: pyLower pat) = true

/-- Spec rule 3 (unrestricted, as the spec words it): at some path-segment
split point, the single segment matches the pattern with trailing `/*`
stripped, or the suffix of the path starting at that segment matches the
pattern as a glob. -/
def specRule3 (fp pat : PyStr) : Prop :=
  ∃ i, i < (splitChar '/' (pyLower fp)).length ∧
    (fnmatch ((splitChar '/' (pyLower fp)).getD i []) (pyRstripSlashStar (pyLower pat)) = true ∨
     fnmatch (joinChar '/' ((splitChar '/' (pyLower fp)).drop i)) (pyLower pat) = true)

/-- The spec's exclusion predicate, exactly as §4.1 words it. -/
def specExcluded (fp : PyStr) (patterns : List PyStr) : Prop :=
  ∃ pat ∈ patterns, specRule1 fp pat ∨ specRule2 fp pat ∨ specRule3 fp pat

/-- The amended spec predicate: identical except that rule 3 applies only to
paths that contain a `/` separator, as the code's `if '/' in filepath` guard
does. -/
def specExcludedAmended (fp : PyStr) (patterns : List PyStr) : Prop :=
  ∃ pat ∈ patterns,
    specRule1 fp pat ∨ specRule2 fp pat ∨ (fp.contains '/' = true ∧ specRule3 fp pat)

theorem segmentHits_iff (pl : PyStr) (parts : List PyStr) :
    segmentHits pl parts = true ↔
      ∃ i, i < parts.length ∧
        (fnmatch (parts.getD i []) (pyRstripSlashStar pl) = true ∨
         fnmatch (joinChar '/' (parts.drop i)) pl = true) := by
  induction parts with
  | nil => simp [segmentHits]
  | cons part rest ih =>
    constructor
    · intro h
      simp only [segmentHits, Bool.or_eq_true] at h
      rcases h with (h | h) | h
      · exact ⟨0, by simp, Or.inl (by simpa using h)⟩
      · exact ⟨0, by simp, Or.inr (by simpa using h)⟩
      · obtain ⟨i, hi, hc⟩ := ih.mp h
        exact ⟨i + 1, by simpa using hi, by simpa using hc⟩
    · rintro ⟨i, hi, hc⟩
      simp only [segmentHits, Bool.or_eq_true]
      cases i with
      | zero =>
        simp only [List.getD_cons_zero, List.drop_zero] at hc
        rcases hc with h | h
        · exact Or.inl (Or.inl h)
        · exact Or.inl (Or.inr h)
      | succ j =>
        refine Or.inr (ih.mpr ⟨j, by simpa using hi, ?_⟩)
        simpa using hc

theorem should_exclude_iff_amended (fp : PyStr) (pats : List PyStr) :
    should_exclude fp pats = true ↔ specExcludedAmended fp pats := by
  unfold should_exclude specExcludedAmended
  rw [List.any_eq_true]
  refine exists_congr (fun pat => and_congr_right (fun _ => ?_))
  simp only [Bool.or_eq_true, specRule1, specRule2, specRule3]
  by_cases hg : fp.contains '/'
  · simp only [hg, if_true, segmentHits_iff]
    aesop
  · simp only [hg, if_false]
    simp only [Bool.not_eq_true] at hg
    simp [hg]

/-!
The Hotspot Scorer (`calculate_hotspots`).  Python floats are modelled as ℚ;
`round(x, 4)` is modelled as exact round-half-to-even at 4 decimal places
(Python rounds the nearest-double value, ties to even; no claim exercises a
tie).  Python dicts are insertion-ordered association lists; the Python code
iterates over `common_files`, a `set`, whose order is unspecified — here the
iteration order is the revision map's key order, a legitimate instance of
that nondeterminism (none of the verified claims depends on it).  The
`ZeroDivisionError` that `rev_count / max_revisions` raises when the maximum
is zero is modelled by returning `none`.
-/

/-- Round-half-to-even to an integer. -/
def roundHalfEven (x : ℚ) : ℤ :=
  if x - ⌊x⌋ < 1 / 2 then ⌊x⌋
  else if 1 / 2 < x - ⌊x⌋ then ⌊x⌋ + 1
  else if ⌊x⌋ % 2 = 0 then ⌊x⌋ else ⌊x⌋ + 1

/-- Model of Python `round(x, 4)`. -/
def pyRound4 (x : ℚ) : ℚ :=
  (roundHalfEven (x * 10000) : ℚ) / 10000

/-- Per-file added/deleted churn counters (`{'added': .., 'deleted': ..}`). -/
structure Churn where
  added : Int
  deleted : Int
deriving DecidableEq, Repr

/-- One commit record (`{hash, author, date, message}`). -/
structure Commit where
  hash : PyStr
  author : PyStr
  date : PyStr
  message : PyStr
deriving DecidableEq, Repr

/-- One hotspot entry as produced by `calculate_hotspots` (the optional
churn/author fields are `none` when absent, and `commits` is attached by the
caller before `build_hierarchy`). -/
structure Entry where
  file : PyStr
  revisions : Int
  lines : Int
  hotspot_score : ℚ
  norm_revisions : ℚ
  churn_added : Option Int
  churn_deleted : Option Int
  total_churn : Option Int
  authors : Option Int
  commits : Option (List Commit)
deriving DecidableEq, Repr

/-- `max(m.values())` over an association list (meaningful only for nonempty
input, like Python's `max`). -/
def maxVals : List (PyStr × Int) → Int
  | [] => 1
  | [p] => p.2
  | p :: q :: t => max p.2 (maxVals (q :: t))

/-- Build one scored entry, as the loop body of `calculate_hotspots` does.
Python's `if churn and filepath in churn` (an empty dict is falsy, and then
no key is found either way) is modelled by the `Option.bind` lookup. -/
def mkEntry (filepath : PyStr) (rev_count lines : Int) (max_revisions max_loc : Int)
    (churn : Option (List (PyStr × Churn))) (authors : Option (List (PyStr × Int))) :
    Entry :=
  let norm_revisions : ℚ := (rev_count : ℚ) / (max_revisions : ℚ)
  let norm_loc : ℚ := (lines : ℚ) / (max_loc : ℚ)
  let hotspot_score : ℚ := norm_revisions * (7 / 10) + norm_loc * (3 / 10)
  { file := filepath
    revisions := rev_count
    lines := lines
    hotspot_score := pyRound4 hotspot_score
    norm_revisions := pyRound4 norm_revisions
    churn_added := (churn.bind (List.lookup filepath)).map Churn.added
    churn_deleted := (churn.bind (List.lookup filepath)).map Churn.deleted
    total_churn := (churn.bind (List.lookup filepath)).map (fun c => c.added + c.deleted)
    authors := authors.bind (List.lookup filepath)
    commits := none }

/-- Stable insertion (descending by `hotspot_score`) used by `pySortDesc`. -/
def insDesc (e : Entry) : List Entry → List Entry
  | [] => [e]
  | x :: t =>
    if x.hotspot_score ≤ e.hotspot_score then e :: x :: t
    else x :: insDesc e t

/-- Model of `hotspots.sort(key=lambda x: x['hotspot_score'], reverse=True)`:
Python's sort is stable, and a stable sort's output is uniquely determined by
the key order, so this stable insertion sort computes the same list. -/
def pySortDesc : List Entry → List Entry
  | [] => []
  | e :: t => insDesc e (pySortDesc t)

/-- `max(m.values()) if m else 1`: the normalization divisor of
`calculate_hotspots`, taken over one whole input map. -/
def maxOrOne (m : List (PyStr × Int)) : Int :=
  if m.isEmpty then 1 else maxVals m

/-- The files `calculate_hotspots` scores: those in both maps (the
`common_files` intersection, iterated here in revision-map key order) whose
line count is at least 10, paired with their revision and line counts. -/
def qualifyingFiles (revisions loc : List (PyStr × Int)) :
    List (PyStr × Int × Int) :=
  (revisions.map Prod.fst).filterMap (fun filepath =>
    match List.lookup filepath revisions, List.lookup filepath loc with
    | some rev_count, some lines =>
      if lines < 10 then none else some (filepath, rev_count, lines)
    | _, _ => none)

/-- Model of `calculate_hotspots(revisions, loc, churn, authors)`.  `none`
models the `ZeroDivisionError` raised when a file reaches the division with a
zero maximum (only possible for `max_revisions`; a scored file has
`lines >= 10`, so `max_loc >= 10` whenever the division is reached, but the
guard mirrors both divisors). -/
def calculate_hotspots (revisions loc : List (PyStr × Int))
    (churn : Option (List (PyStr × Churn))) (authors : Option (List (PyStr × Int))) :
    Option (List Entry) :=
  if ¬(qualifyingFiles revisions loc).isEmpty ∧
      (maxOrOne revisions = 0 ∨ maxOrOne loc = 0) then none
  else
    some (pySortDesc ((qualifyingFiles revisions loc).map (fun q =>
      mkEntry q.1 q.2.1 q.2.2 (maxOrOne revisions) (maxOrOne loc) churn authors)))

/-!
The History Extractor parsers.  Each `get_*` function takes the raw text that
`run_git_command` produced (the subprocess itself is an external collaborator)
together with the exclusion patterns, and builds its per-file dataset exactly
as the Python loop does.
-/

/-- `defaultdict(int)` increment: bump the counter (inserting `0 + 1` for a
new key at the end, as dict insertion order does). -/
def incrKey (m : List (PyStr × Int)) (k : PyStr) : List (PyStr × Int) :=
  match m with
  | [] => [(k, 1)]
  | (k', v) :: t => if k' = k then (k', v + 1) :: t else (k', v) :: incrKey t k

/-- Model of the parsing loop of `get_revision_frequency(repo_path, ...)`:
count each stripped, non-empty output line that does not start with `commit`
and is not excluded. -/
def get_revision_frequency (output : PyStr) (exclusions : List PyStr) :
    List (PyStr × Int) :=
  (splitChar '\n' output).foldl
    (fun file_revisions rawLine =>
      let line := pyStrip rawLine
      if line ≠ [] ∧ ¬("commit".data.isPrefixOf line) ∧ ¬(should_exclude line exclusions) then
        incrKey file_revisions line
      else file_revisions)
    []

/-- `defaultdict` access `file_churn[filename]`: materialize the default
`{'added': 0, 'deleted': 0}` entry for a missing key. -/
def ensureChurnKey (m : List (PyStr × Churn)) (k : PyStr) : List (PyStr × Churn) :=
  match m with
  | [] => [(k, ⟨0, 0⟩)]
  | (k', v) :: t => if k' = k then (k', v) :: t else (k', v) :: ensureChurnKey t k

/-- In-place update of the `added`/`deleted` counters of an existing key. -/
def bumpChurn (m : List (PyStr × Churn)) (k : PyStr) (da dd : Int) :
    List (PyStr × Churn) :=
  m.map (fun p => if p.1 = k then (p.1, ⟨p.2.added + da, p.2.deleted + dd⟩) else p)

/-- One line of the `get_churn_data` loop.  The Python body is

    file_churn[filename]['added'] += int(added) if added != '-' else 0
    file_churn[filename]['deleted'] += int(deleted) if deleted != '-' else 0

inside `try ... except ValueError: continue`: the `defaultdict` entry is
created before `int(added)` can raise, and the `added` update commits before
`int(deleted)` can raise, so a `ValueError` skips only the remainder of the
statement pair. -/
def churnLine (exclusions : List PyStr) (file_churn : List (PyStr × Churn))
    (line : PyStr) : List (PyStr × Churn) :=
  match splitChar '\t' line with
  | [added, deleted, filename] =>
    if should_exclude filename exclusions then file_churn
    else
      let m1 := ensureChurnKey file_churn filename
      match (if added = ['-'] then some 0 else pyInt added) with
      | none => m1
      | some a =>
        let m2 := bumpChurn m1 filename a 0
        match (if deleted = ['-'] then some 0 else pyInt deleted) with
        | none => m2
        | some d => bumpChurn m2 filename 0 d
  | _ => file_churn

/-- Model of the parsing loop of `get_churn_data(repo_path, ...)`. -/
def get_churn_data (output : PyStr) (exclusions : List PyStr) :
    List (PyStr × Churn) :=
  (splitChar '\n' output).foldl (churnLine exclusions) []

/-- `defaultdict(list)` append: add one commit to a file's list (inserting
the key at the end if new). -/
def appendCommit (m : List (PyStr × List Commit)) (k : PyStr) (c : Commit) :
    List (PyStr × List Commit) :=
  match m with
  | [] => [(k, [c])]
  | (k', l) :: t =>
    if k' = k then (k', l ++ [c]) :: t else (k', l) :: appendCommit t k c

/-- Parser state of `get_commit_messages`: the accumulated per-file commit
lists and the commit record currently in scope (if any). -/
structure CommitParseState where
  file_commits : List (PyStr × List Commit)
  current_commit : Option Commit
deriving Repr

/-- Is a (stripped) line a well-formed `COMMIT:` marker, i.e. one whose
payload splits (on `|`, at most 3 splits) into at least 4 fields? -/
def isGoodMarker (line : PyStr) : Prop :=
  "COMMIT:".data.isPrefixOf line = true ∧
    4 ≤ (pySplitMax '|' 3 (line.drop 7)).length

instance (line : PyStr) : Decidable (isGoodMarker line) := by
  unfold isGoodMarker
  infer_instance

/-- One line of the `get_commit_messages` loop. -/
def commitLine (exclusions : List PyStr) (st : CommitParseState) (rawLine : PyStr) :
    CommitParseState :=
  let line := pyStrip rawLine
  if line = [] then st
  else if "COMMIT:".data.isPrefixOf line then
    let parts := pySplitMax '|' 3 (line.drop 7)
    if 4 ≤ parts.length then
      { st with current_commit := some ⟨parts.getD 0 [], parts.getD 1 [],
                                       parts.getD 2 [], parts.getD 3 []⟩ }
    else { st with current_commit := none }
  else
    match st.current_commit with
    | some cm =>
      if (line.contains '/' || line.contains '.') then
        if ¬(should_exclude line exclusions) then
          { st with file_commits := appendCommit st.file_commits line cm }
        else st
      else st
    | none => st

/-- Run the `get_commit_messages` loop over a list of raw lines. -/
def runCommitLines (exclusions : List PyStr) (lines : List PyStr) :
    CommitParseState :=
  lines.foldl (commitLine exclusions) ⟨[], none⟩

/-- Model of the parsing loop of `get_commit_messages(repo_path, ...)`. -/
def get_commit_messages (output : PyStr) (exclusions : List PyStr) :
    List (PyStr × List Commit) :=
  (runCommitLines exclusions (splitChar '\n' output)).file_commits

/-- The cache-validity comparison at the heart of `load_cache`: the cached
analysis is reused iff the current HEAD hash equals the stored `git_head` and
the current commit count equals the stored `commit_count` (each side `none`
when the value is missing or the git query failed, like Python's `None`). -/
def cache_is_valid (current_head cached_head : Option PyStr)
    (current_count cached_count : Option PyStr) : Bool :=
  current_head == cached_head && current_count == cached_count

/-!
The Hierarchy Builder (`build_hierarchy`).  A node is either a file leaf (a
dict without a `children` key, carrying copies of the entry's fields) or a
directory (a dict with a `children` dict).  The children dict is modelled as
an insertion-ordered association structure `HChildren`; the final
`convert_to_list` pass, which turns each children dict into the list of its
values in insertion order, is the identity on this model.  Descending into an
existing file leaf (one hotspot path being a proper prefix of another's
directory chain) evaluates `leaf['children']` in Python and raises
`KeyError`; that is modelled by `none`.
-/

mutual
inductive HNode where
  | file (name : PyStr) (fullPath : PyStr) (size : Int) (revisions : Int)
      (hotspot_score : ℚ) (norm_revisions : ℚ) (authors : Option Int)
      (churn : Option Int) (commits : Option (List Commit)) : HNode
  | dir (name : PyStr) (children : HChildren) : HNode

inductive HChildren where
  | nil : HChildren
  | cons (key : PyStr) (node : HNode) (rest : HChildren) : HChildren
end

/-- The `name` field of a node. -/
def nodeName : HNode → PyStr
  | .file n _ _ _ _ _ _ _ _ => n
  | .dir n _ => n

/-- Children-dict lookup (`part in current['children']` / access). -/
def lookupChild : HChildren → PyStr → Option HNode
  | .nil, _ => none
  | .cons k n rest, key => if k = key then some n else lookupChild rest key

/-- Children-dict assignment: overwrite in place if the key exists (keeping
its position, as Python dicts do), else append at the end. -/
def setChild : HChildren → PyStr → HNode → HChildren
  | .nil, key, v => .cons key v .nil
  | .cons k n rest, key, v =>
    if k = key then .cons key v rest else .cons k n (setChild rest key v)

/-- The per-entry body of `build_hierarchy`: walk/create directory nodes for
every path segment but the last, then assign the file leaf for the last
segment.  `parts` is `entry['file'].split('/')` (never empty, so the `[]`
case is unreachable). -/
def insertParts (e : Entry) : List PyStr → HChildren → Option HChildren
  | [], ch => some ch
  | [filename], ch =>
    some (setChild ch filename
      (.file filename e.file e.lines e.revisions e.hotspot_score e.norm_revisions
        e.authors e.total_churn e.commits))
  | part :: rest, ch =>
    match lookupChild ch part with
    | none =>
      (insertParts e rest .nil).map (fun sub => setChild ch part (.dir part sub))
    | some (.dir name sub) =>
      (insertParts e rest sub).map (fun sub' => setChild ch part (.dir name sub'))
    | some (.file _ _ _ _ _ _ _ _ _) => none

/-- Model of `build_hierarchy(hotspots)`: fold every entry into the root's
children and wrap them in the `root` node. -/
def build_hierarchy (hotspots : List Entry) : Option HNode :=
  (hotspots.foldlM (fun ch e => insertParts e (splitChar '/' e.file) ch)
      HChildren.nil).map
    (fun ch => HNode.dir "root".data ch)

mutual
/-- All leaves below a node, each as (directory names below this node, leaf
name, leaf `fullPath`). -/
def nodeLeafRecs : HNode → List (List PyStr × PyStr × PyStr)
  | .file n fp _ _ _ _ _ _ _ => [([], n, fp)]
  | .dir d ch => (childLeafRecs ch).map (fun r => (d :: r.1, r.2))

/-- All leaves below a children collection. -/
def childLeafRecs : HChildren → List (List PyStr × PyStr × PyStr)
  | .nil => []
  | .cons _ n rest => nodeLeafRecs n ++ childLeafRecs rest
end

mutual
/-- Well-formedness of a node: every child is stored under its own name. -/
def nodeWF : HNode → Prop
  | .file _ _ _ _ _ _ _ _ _ => True
  | .dir _ ch => childWF ch

/-- Well-formedness of a children collection. -/
def childWF : HChildren → Prop
  | .nil => True
  | .cons k n rest => nodeName n = k ∧ nodeWF n ∧ childWF rest
end

/-- Induction along the sibling spine of a children collection. -/
theorem HChildren.spineInduction (motive : HChildren → Prop) (hnil : motive .nil)
    (hcons : ∀ k n rest, motive rest → motive (.cons k n rest)) :
    ∀ ch, motive ch
  | .nil => hnil
  | .cons k n rest => hcons k n rest (HChildren.spineInduction motive hnil hcons rest)

theorem lookupChild_wf {ch : HChildren} {k : PyStr} {n : HNode}
    (hwf : childWF ch) (h : lookupChild ch k = some n) :
    nodeName n = k ∧ nodeWF n := by
  induction ch using HChildren.spineInduction with
  | hnil => simp [lookupChild] at h
  | hcons k' n' rest ih =>
    obtain ⟨hname, hn, hrest⟩ := hwf
    simp only [lookupChild] at h
    split at h
    · cases h
      rename_i hk
      exact ⟨hk ▸ hname, hn⟩
    · exact ih hrest h

theorem setChild_wf {ch : HChildren} {k : PyStr} {v : HNode}
    (hwf : childWF ch) (hname : nodeName v = k) (hv : nodeWF v) :
    childWF (setChild ch k v) := by
  induction ch using HChildren.spineInduction with
  | hnil => exact ⟨hname, hv, trivial⟩
  | hcons k' n' rest ih =>
    obtain ⟨hname', hn', hrest⟩ := hwf
    simp only [setChild]
    split
    · exact ⟨hname, hv, hrest⟩
    · exact ⟨hname', hn', ih hrest⟩

theorem mem_childLeafRecs_setChild {ch : HChildren} {k : PyStr} {v : HNode} {r}
    (h : r ∈ childLeafRecs (setChild ch k v)) :
    r ∈ childLeafRecs ch ∨ r ∈ nodeLeafRecs v := by
  induction ch using HChildren.spineInduction with
  | hnil => simpa [setChild, childLeafRecs] using h
  | hcons k' n' rest ih =>
    simp only [setChild] at h
    split at h
    · simp only [childLeafRecs, List.mem_append] at h
      rcases h with h | h
      · exact Or.inr h
      · exact Or.inl (by simp [childLeafRecs, List.mem_append, h])
    · simp only [childLeafRecs, List.mem_append] at h
      rcases h with h | h
      · exact Or.inl (by simp [childLeafRecs, List.mem_append, h])
      · rcases ih h with h' | h'
        · exact Or.inl (by simp [childLeafRecs, List.mem_append, h'])
        · exact Or.inr h'

theorem mem_childLeafRecs_of_lookup {ch : HChildren} {k : PyStr} {node : HNode} {r}
    (hl : lookupChild ch k = some node) (hr : r ∈ nodeLeafRecs node) :
    r ∈ childLeafRecs ch := by
  induction ch using HChildren.spineInduction with
  | hnil => simp [lookupChild] at hl
  | hcons k' n' rest ih =>
    simp only [lookupChild] at hl
    split at hl
    · cases hl
      simp [childLeafRecs, List.mem_append, hr]
    · simp [childLeafRecs, List.mem_append, ih hl]

theorem insertParts_wf (e : Entry) :
    ∀ (parts : List PyStr) {ch ch' : HChildren}, childWF ch →
      insertParts e parts ch = some ch' → childWF ch' := by
  intro parts
  induction parts with
  | nil =>
    intro ch ch' hwf h
    simp only [insertParts, Option.some.injEq] at h
    exact h ▸ hwf
  | cons p rest ih =>
    intro ch ch' hwf h
    cases rest with
    | nil =>
      simp only [insertParts, Option.some.injEq] at h
      subst h
      exact setChild_wf hwf rfl trivial
    | cons q rest' =>
      simp only [insertParts] at h
      cases hl : lookupChild ch p with
      | none =>
        rw [hl] at h
        rw [Option.map_eq_some'] at h
        obtain ⟨sub, hsub, rfl⟩ := h
        have hsubwf : childWF sub := @ih HChildren.nil sub trivial hsub
        exact setChild_wf hwf rfl hsubwf
      | some node =>
        rw [hl] at h
        cases node with
        | file n fp sz rv sc nr au chn cm => simp at h
        | dir name sub =>
          simp only at h
          rw [Option.map_eq_some'] at h
          obtain ⟨sub', hsub', rfl⟩ := h
          obtain ⟨hname, hnwf⟩ := lookupChild_wf hwf hl
          have : childWF sub' := ih hnwf hsub'
          exact setChild_wf hwf hname this

theorem insertParts_recs (e : Entry) :
    ∀ (parts : List PyStr) {ch ch' : HChildren}, childWF ch →
      insertParts e parts ch = some ch' →
      ∀ r ∈ childLeafRecs ch',
        r ∈ childLeafRecs ch ∨ (r.1 ++ [r.2.1] = parts ∧ r.2.2 = e.file) := by
  intro parts
  induction parts with
  | nil =>
    intro ch ch' hwf h r hr
    simp only [insertParts, Option.some.injEq] at h
    exact Or.inl (h ▸ hr)
  | cons p rest ih =>
    intro ch ch' hwf h r hr
    cases rest with
    | nil =>
      simp only [insertParts, Option.some.injEq] at h
      subst h
      rcases mem_childLeafRecs_setChild hr with h' | h'
      · exact Or.inl h'
      · simp only [nodeLeafRecs, List.mem_singleton] at h'
        subst h'
        exact Or.inr (by simp)
    | cons q rest' =>
      simp only [insertParts] at h
      cases hl : lookupChild ch p with
      | none =>
        rw [hl] at h
        rw [Option.map_eq_some'] at h
        obtain ⟨sub, hsub, rfl⟩ := h
        rcases mem_childLeafRecs_setChild hr with h' | h'
        · exact Or.inl h'
        · simp only [nodeLeafRecs, List.mem_map] at h'
          obtain ⟨r', hr', rfl⟩ := h'
          rcases @ih HChildren.nil sub trivial hsub r' hr' with h'' | h''
          · simp [childLeafRecs] at h''
          · exact Or.inr (by simp [h''.1, h''.2])
      | some node =>
        rw [hl] at h
        cases node with
        | file n fp sz rv sc nr au chn cm => simp at h
        | dir name sub =>
          simp only at h
          rw [Option.map_eq_some'] at h
          obtain ⟨sub', hsub', rfl⟩ := h
          obtain ⟨hname, hnwf⟩ := lookupChild_wf hwf hl
          rcases mem_childLeafRecs_setChild hr with h' | h'
          · exact Or.inl h'
          · simp only [nodeLeafRecs, List.mem_map] at h'
            obtain ⟨r', hr', rfl⟩ := h'
            rcases ih hnwf hsub' r' hr' with h'' | h''
            · refine Or.inl ?_
              have : (name :: r'.1, r'.2) ∈ nodeLeafRecs (.dir name sub) := by
                simp only [nodeLeafRecs, List.mem_map]
                exact ⟨r', h'', rfl⟩
              exact mem_childLeafRecs_of_lookup hl this
            · refine Or.inr ?_
              simp only [nodeName] at hname
              simp [h''.1, h''.2, hname]

/-- The fold invariant behind `build_hierarchy`: starting from well-formed
children whose leaf records are all good, inserting any prefix of the hotspot
list keeps the children well-formed and every leaf record good (its
ancestors-plus-name join equals its `fullPath`, which is the `file` key of
some input entry). -/
theorem buildFold (hs : List Entry) :
    ∀ (entries : List Entry), (∀ e ∈ entries, e ∈ hs) →
      ∀ {ch ch' : HChildren}, childWF ch →
      (∀ r ∈ childLeafRecs ch,
        joinChar '/' (r.1 ++ [r.2.1]) = r.2.2 ∧ ∃ e ∈ hs, e.file = r.2.2) →
      (entries.foldlM (fun ch e => insertParts e (splitChar '/' e.file) ch) ch =
        some ch') →
      childWF ch' ∧ ∀ r ∈ childLeafRecs ch',
        joinChar '/' (r.1 ++ [r.2.1]) = r.2.2 ∧ ∃ e ∈ hs, e.file = r.2.2 := by
  intro entries
  induction entries with
  | nil =>
    intro _ ch ch' hwf hgood h
    simp only [List.foldlM_nil, Option.pure_def, Option.some.injEq] at h
    exact h ▸ ⟨hwf, hgood⟩
  | cons e rest ih =>
    intro hsub ch ch' hwf hgood h
    simp only [List.foldlM_cons] at h
    obtain ⟨ch1, h1, h2⟩ := Option.bind_eq_some.mp h
    have hwf1 : childWF ch1 := insertParts_wf e _ hwf h1
    have hgood1 : ∀ r ∈ childLeafRecs ch1,
        joinChar '/' (r.1 ++ [r.2.1]) = r.2.2 ∧ ∃ e' ∈ hs, e'.file = r.2.2 := by
      intro r hr
      rcases insertParts_recs e _ hwf h1 r hr with h' | h'
      · exact hgood r h'
      · refine ⟨?_, ⟨e, hsub e (by simp), h'.2.symm⟩⟩
        rw [h'.1, joinChar_splitChar, h'.2]
    exact ih (fun e' he' => hsub e' (by simp [he'])) hwf1 hgood1 h2

theorem lookup_mem {α β : Type} [BEq α] [LawfulBEq α] {k : α} {v : β} :
    ∀ {l : List (α × β)}, List.lookup k l = some v → (k, v) ∈ l := by
  intro l
  induction l with
  | nil => intro h; simp [List.lookup] at h
  | cons p t ih =>
    intro h
    rw [List.lookup] at h
    split at h
    · cases h
      rename_i hk
      have : k = p.1 := by simpa using hk
      simp [← this, Prod.ext_iff]
    · simp [ih h]

theorem maxVals_le {l : List (PyStr × Int)} {p : PyStr × Int} (hp : p ∈ l) :
    p.2 ≤ maxVals l := by
  induction l with
  | nil => simp at hp
  | cons q t ih =>
    cases t with
    | nil =>
      simp only [List.mem_singleton] at hp
      simp [hp, maxVals]
    | cons q' t' =>
      simp only [maxVals]
      rcases List.mem_cons.mp hp with h | h
      · exact h ▸ le_max_left _ _
      · exact le_trans (ih h) (le_max_right _ _)

theorem mem_insDesc {e a : Entry} {l : List Entry} :
    a ∈ insDesc e l ↔ a = e ∨ a ∈ l := by
  induction l with
  | nil => simp [insDesc]
  | cons x t ih =>
    simp only [insDesc]
    split
    · simp
    · simp only [List.mem_cons, ih]
      tauto

theorem mem_pySortDesc {a : Entry} {l : List Entry} :
    a ∈ pySortDesc l ↔ a ∈ l := by
  induction l with
  | nil => simp [pySortDesc]
  | cons e t ih => simp [pySortDesc, mem_insDesc, ih]

theorem insDesc_sorted {e : Entry} {l : List Entry}
    (h : l.Pairwise (fun a b => b.hotspot_score ≤ a.hotspot_score)) :
    (insDesc e l).Pairwise (fun a b => b.hotspot_score ≤ a.hotspot_score) := by
  induction l with
  | nil => simp [insDesc]
  | cons x t ih =>
    rw [List.pairwise_cons] at h
    obtain ⟨hx, ht⟩ := h
    simp only [insDesc]
    split
    · rename_i hle
      refine List.Pairwise.cons ?_ (List.Pairwise.cons hx ht)
      intro y hy
      rcases List.mem_cons.mp hy with rfl | hy'
      · exact hle
      · exact le_trans (hx y hy') hle
    · rename_i hgt
      refine List.Pairwise.cons ?_ (ih ht)
      intro y hy
      rcases mem_insDesc.mp hy with rfl | hy'
      · exact le_of_lt (lt_of_not_le hgt)
      · exact hx y hy'

theorem pySortDesc_sorted (l : List Entry) :
    (pySortDesc l).Pairwise (fun a b => b.hotspot_score ≤ a.hotspot_score) := by
  induction l with
  | nil => simp [pySortDesc]
  | cons e t ih => exact insDesc_sorted ih

theorem roundHalfEven_nonneg {x : ℚ} (hx : 0 ≤ x) : 0 ≤ roundHalfEven x := by
  have hf : (0 : ℤ) ≤ ⌊x⌋ := Int.floor_nonneg.mpr hx
  unfold roundHalfEven
  split
  · exact hf
  · split
    · omega
    · split <;> omega

theorem roundHalfEven_le {x : ℚ} {n : ℤ} (hx : x ≤ (n : ℚ)) : roundHalfEven x ≤ n := by
  have hf : ⌊x⌋ ≤ n := by
    have := Int.floor_le_floor hx
    simpa using this
  unfold roundHalfEven
  split
  · exact hf
  · rename_i h1
    push_neg at h1
    have hlt : (⌊x⌋ : ℚ) + 1 ≤ x + 1 / 2 := by
      have : (⌊x⌋ : ℚ) ≤ x - 1 / 2 := by linarith
      linarith
    have hlt2 : (⌊x⌋ : ℚ) + 1 < (n : ℚ) + 1 := by linarith
    have : ⌊x⌋ + 1 ≤ n := by exact_mod_cast Int.lt_add_one_iff.mp (by exact_mod_cast hlt2)
    split
    · exact this
    · split <;> omega

theorem pyRound4_bounds {x : ℚ} (h0 : 0 ≤ x) (h1 : x ≤ 1) :
    0 ≤ pyRound4 x ∧ pyRound4 x ≤ 1 := by
  have hy0 : (0 : ℚ) ≤ x * 10000 := by positivity
  have hy1 : x * 10000 ≤ ((10000 : ℤ) : ℚ) := by push_cast; linarith
  have hr0 := roundHalfEven_nonneg hy0
  have hr1 := roundHalfEven_le hy1
  unfold pyRound4
  constructor
  · apply div_nonneg _ (by norm_num)
    exact_mod_cast hr0
  · rw [div_le_one (by norm_num)]
    exact_mod_cast hr1

theorem pyRound4_one : pyRound4 1 = 1 := by
  unfold pyRound4 roundHalfEven
  norm_num

theorem mem_qualifyingFiles {revs loc : List (PyStr × Int)} {q : PyStr × Int × Int} :
    q ∈ qualifyingFiles revs loc ↔
      q.1 ∈ revs.map Prod.fst ∧ List.lookup q.1 revs = some q.2.1 ∧
      List.lookup q.1 loc = some q.2.2 ∧ ¬(q.2.2 < 10) := by
  unfold qualifyingFiles
  rw [List.mem_filterMap]
  constructor
  · rintro ⟨k, hk, hf⟩
    cases hr : List.lookup k revs with
    | none => rw [hr] at hf; simp at hf
    | some r =>
      cases hl : List.lookup k loc with
      | none => rw [hr, hl] at hf; simp at hf
      | some l =>
        rw [hr, hl] at hf
        by_cases h10 : l < 10
        · simp [h10] at hf
        · simp only [h10, if_false, Option.some.injEq] at hf
          subst hf
          exact ⟨hk, hr, hl, h10⟩
  · rintro ⟨hk, hr, hl, h10⟩
    exact ⟨q.1, hk, by rw [hr, hl]; simp [h10]⟩

theorem mem_calculate_hotspots {revs loc : List (PyStr × Int)}
    {churn : Option (List (PyStr × Churn))} {authors : Option (List (PyStr × Int))}
    {hs : List Entry} (h : calculate_hotspots revs loc churn authors = some hs)
    {e : Entry} :
    e ∈ hs ↔ ∃ q ∈ qualifyingFiles revs loc,
      e = mkEntry q.1 q.2.1 q.2.2 (maxOrOne revs) (maxOrOne loc) churn authors := by
  unfold calculate_hotspots at h
  split at h
  · exact absurd h (by simp)
  · simp only [Option.some.injEq] at h
    subst h
    rw [mem_pySortDesc, List.mem_map]
    constructor
    · rintro ⟨q, hq, rfl⟩
      exact ⟨q, hq, rfl⟩
    · rintro ⟨q, hq, rfl⟩
      exact ⟨q, hq, rfl⟩

theorem calculate_hotspots_no_crash {revs loc : List (PyStr × Int)}
    {churn : Option (List (PyStr × Churn))} {authors : Option (List (PyStr × Int))}
    {hs : List Entry} (h : calculate_hotspots revs loc churn authors = some hs)
    (hne : ¬(qualifyingFiles revs loc).isEmpty) :
    maxOrOne revs ≠ 0 ∧ maxOrOne loc ≠ 0 := by
  unfold calculate_hotspots at h
  split at h
  · exact absurd h (by simp)
  · rename_i hcond
    push_neg at hcond
    exact hcond hne

@[simp] theorem mkEntry_file (k : PyStr) (r l mR mL : Int) (c a) :
    (mkEntry k r l mR mL c a).file = k := rfl

@[simp] theorem mkEntry_revisions (k : PyStr) (r l mR mL : Int) (c a) :
    (mkEntry k r l mR mL c a).revisions = r := rfl

@[simp] theorem mkEntry_lines (k : PyStr) (r l mR mL : Int) (c a) :
    (mkEntry k r l mR mL c a).lines = l := rfl

@[simp] theorem mkEntry_hotspot_score (k : PyStr) (r l mR mL : Int) (c a) :
    (mkEntry k r l mR mL c a).hotspot_score =
      pyRound4 (((r : ℚ) / (mR : ℚ)) * (7 / 10) + ((l : ℚ) / (mL : ℚ)) * (3 / 10)) := rfl

@[simp] theorem mkEntry_norm_revisions (k : PyStr) (r l mR mL : Int) (c a) :
    (mkEntry k r l mR mL c a).norm_revisions = pyRound4 ((r : ℚ) / (mR : ℚ)) := rfl

/-- C2: the set of entries produced by the Hotspot Scorer is exactly the set
of file paths present in both the revision map and the line-count map whose
line count is at least 10: a file with fewer than 10 lines never appears
regardless of its revision count, and a file present in only one of the two
input maps never appears. -/
theorem claim_C2 (revs loc : List (PyStr × Int))
    (churn : Option (List (PyStr × Churn))) (authors : Option (List (PyStr × Int)))
    (hs : List Entry) (h : calculate_hotspots revs loc churn authors = some hs)
    (f : PyStr) :
    (∃ e ∈ hs, e.file = f) ↔
      (∃ r, List.lookup f revs = some r) ∧
      (∃ l, List.lookup f loc = some l ∧ 10 ≤ l) := by
  constructor
  · rintro ⟨e, he, rfl⟩
    obtain ⟨q, hq, rfl⟩ := (mem_calculate_hotspots h).mp he
    obtain ⟨-, hr, hl, h10⟩ := mem_qualifyingFiles.mp hq
    exact ⟨⟨q.2.1, by simpa using hr⟩, ⟨q.2.2, by simpa using hl, by omega⟩⟩
  · rintro ⟨⟨r, hr⟩, ⟨l, hl, h10⟩⟩
    have hkeys : f ∈ revs.map Prod.fst :=
      List.mem_map.mpr ⟨(f, r), lookup_mem hr, rfl⟩
    have hq : ((f, r, l) : PyStr × Int × Int) ∈ qualifyingFiles revs loc :=
      mem_qualifyingFiles.mpr ⟨hkeys, hr, hl, by show ¬(l < 10); omega⟩
    refine ⟨mkEntry f r l (maxOrOne revs) (maxOrOne loc) churn authors, ?_, rfl⟩
    exact (mem_calculate_hotspots h).mpr ⟨(f, r, l), hq, rfl⟩

/-- C2 witness: on the concrete example maps the equivalence is instantiated
at `a.py`, which satisfies both sides. -/
theorem claim_C2_witness :
    (∃ e ∈ [(⟨"a.py".data, 10, 50, 1, 1, none, none, none, none, none⟩ : Entry),
            ⟨"b.py".data, 2, 20, 13/50, 1/5, none, none, none, none, none⟩],
        e.file = "a.py".data) ↔
      (∃ r, List.lookup "a.py".data [("a.py".data, (10:Int)), ("b.py".data, 2)] = some r) ∧
      (∃ l, List.lookup "a.py".data [("a.py".data, (50:Int)), ("b.py".data, 20)] = some l ∧
        10 ≤ l) := by
  refine claim_C2 [("a.py".data, 10), ("b.py".data, 2)]
    [("a.py".data, 50), ("b.py".data, 20)] none none _ ?_ "a.py".data
  simp only [calculate_hotspots, qualifyingFiles, maxOrOne, mkEntry, maxVals,
             List.map, List.filterMap, List.lookup, List.isEmpty, pySortDesc, insDesc,
             pyRound4, roundHalfEven]
  norm_num

/-- C8: for every non-empty input to the Hotspot Scorer in which all revision
counts and line counts are non-negative, the `hotspot_score` of every
produced entry lies in the closed interval [0, 1].  (When the computation
raises — the `none` case — no entries are produced.) -/
theorem claim_C8 (revs loc : List (PyStr × Int))
    (churn : Option (List (PyStr × Churn))) (authors : Option (List (PyStr × Int)))
    (hs : List Entry)
    (hrev : ∀ p ∈ revs, 0 ≤ p.2) (hloc : ∀ p ∈ loc, 0 ≤ p.2)
    (hne : revs ≠ [])
    (h : calculate_hotspots revs loc churn authors = some hs) :
    ∀ e ∈ hs, 0 ≤ e.hotspot_score ∧ e.hotspot_score ≤ 1 := by
  intro e he
  obtain ⟨q, hq, rfl⟩ := (mem_calculate_hotspots h).mp he
  obtain ⟨-, hr, hl, h10⟩ := mem_qualifyingFiles.mp hq
  have hqne : ¬(qualifyingFiles revs loc).isEmpty := by
    cases hlist : qualifyingFiles revs loc with
    | nil => rw [hlist] at hq; simp at hq
    | cons a t => simp [hlist]
  obtain ⟨hR0, hL0⟩ := calculate_hotspots_no_crash h hqne
  have hrmem : (q.1, q.2.1) ∈ revs := lookup_mem hr
  have hlmem : (q.1, q.2.2) ∈ loc := lookup_mem hl
  have hrevne : revs.isEmpty = false := by
    cases revs with
    | nil => simp at hrmem
    | cons a t => rfl
  have hlocne : loc.isEmpty = false := by
    cases loc with
    | nil => simp at hlmem
    | cons a t => rfl
  have hmaxR : maxOrOne revs = maxVals revs := by simp [maxOrOne, hrevne]
  have hmaxL : maxOrOne loc = maxVals loc := by simp [maxOrOne, hlocne]
  have hr0 : (0 : Int) ≤ q.2.1 := hrev _ hrmem
  have hrle : q.2.1 ≤ maxOrOne revs := hmaxR ▸ maxVals_le hrmem
  have hRpos : (0 : Int) < maxOrOne revs :=
    lt_of_le_of_ne (le_trans hr0 hrle) (Ne.symm hR0)
  have hl10 : (10 : Int) ≤ q.2.2 := by omega
  have hlle : q.2.2 ≤ maxOrOne loc := hmaxL ▸ maxVals_le hlmem
  have hLpos : (0 : Int) < maxOrOne loc := by omega
  have hnr0 : (0 : ℚ) ≤ (q.2.1 : ℚ) / (maxOrOne revs : ℚ) :=
    div_nonneg (by exact_mod_cast hr0) (by exact_mod_cast le_of_lt hRpos)
  have hnr1 : (q.2.1 : ℚ) / (maxOrOne revs : ℚ) ≤ 1 :=
    (div_le_one (by exact_mod_cast hRpos)).mpr (by exact_mod_cast hrle)
  have hnl0 : (0 : ℚ) ≤ (q.2.2 : ℚ) / (maxOrOne loc : ℚ) :=
    div_nonneg (by exact_mod_cast le_trans (by norm_num) hl10)
      (by exact_mod_cast le_of_lt hLpos)
  have hnl1 : (q.2.2 : ℚ) / (maxOrOne loc : ℚ) ≤ 1 :=
    (div_le_one (by exact_mod_cast hLpos)).mpr (by exact_mod_cast hlle)
  rw [mkEntry_hotspot_score]
  exact pyRound4_bounds (by nlinarith) (by nlinarith)

/-- C8 witness: on the concrete example maps both produced entries have
scores in [0, 1]; the theorem is applied to the first. -/
theorem claim_C8_witness :
    0 ≤ (1 : ℚ) ∧ (1 : ℚ) ≤ 1 := by
  have h := claim_C8 [("a.py".data, 10), ("b.py".data, 2)]
    [("a.py".data, 50), ("b.py".data, 20)] none none
    [⟨"a.py".data, 10, 50, 1, 1, none, none, none, none, none⟩,
     ⟨"b.py".data, 2, 20, 13/50, 1/5, none, none, none, none, none⟩]
    (by intro p hp; fin_cases hp <;> norm_num)
    (by intro p hp; fin_cases hp <;> norm_num)
    (by simp)
    (by simp only [calculate_hotspots, qualifyingFiles, maxOrOne, mkEntry, maxVals,
          List.map, List.filterMap, List.lookup, List.isEmpty, pySortDesc, insDesc,
          pyRound4, roundHalfEven]
        norm_num)
    ⟨"a.py".data, 10, 50, 1, 1, none, none, none, none, none⟩ (by simp)
  exact h

/-- C1 counterexample: the claim says the divisors are maxima over the
intersection of the two maps, so that the file with the most revisions among
the scored files gets `normalizedRevisions == 1.0`.  On
`revisions = {a.py: 10, b.py: 2}`, `loc = {b.py: 20}` the only scored file is
`b.py` (so it has the maximum revision count among scored files), yet the
code divides by `max_revisions = 10`, the maximum over the whole revision
map, giving `normalizedRevisions = 0.2`, not `1.0`. -/
theorem claim_C1_counterexample :
    calculate_hotspots [("a.py".data, 10), ("b.py".data, 2)] [("b.py".data, 20)]
        none none =
      some [⟨"b.py".data, 2, 20, 11/25, 1/5, none, none, none, none, none⟩] ∧
    ¬((1 : ℚ)/5 = 1) := by
  constructor
  · simp only [calculate_hotspots, qualifyingFiles, maxOrOne, mkEntry, maxVals,
        List.map, List.filterMap, List.lookup, List.isEmpty, pySortDesc, insDesc,
        pyRound4, roundHalfEven]
    norm_num
  · norm_num

/-- C1 (amended): the normalization divisors are the maxima over the whole
revision map and the whole line-count map respectively (or 1 when the
respective map is empty); consequently a scored entry whose revision count
equals the maximum over the entire revision map has
`normalizedRevisions == 1.0`. -/
theorem claim_C1_amended (revs loc : List (PyStr × Int))
    (churn : Option (List (PyStr × Churn))) (authors : Option (List (PyStr × Int)))
    (hs : List Entry) (e : Entry)
    (h : calculate_hotspots revs loc churn authors = some hs)
    (he : e ∈ hs) (hmax : e.revisions = maxVals revs) :
    e.norm_revisions = 1 := by
  obtain ⟨q, hq, rfl⟩ := (mem_calculate_hotspots h).mp he
  obtain ⟨-, hr, -, -⟩ := mem_qualifyingFiles.mp hq
  have hqne : ¬(qualifyingFiles revs loc).isEmpty := by
    cases hlist : qualifyingFiles revs loc with
    | nil => rw [hlist] at hq; simp at hq
    | cons a t => simp [hlist]
  obtain ⟨hR0, -⟩ := calculate_hotspots_no_crash h hqne
  have hrmem : (q.1, q.2.1) ∈ revs := lookup_mem hr
  have hrevne : revs.isEmpty = false := by
    cases revs with
    | nil => simp at hrmem
    | cons a t => rfl
  have hmaxR : maxOrOne revs = maxVals revs := by simp [maxOrOne, hrevne]
  rw [mkEntry_revisions] at hmax
  rw [mkEntry_norm_revisions, hmax, ← hmaxR]
  rw [div_self (by exact_mod_cast hR0)]
  exact pyRound4_one

/-- C1 witness for the amended theorem: on
`revisions = {a.py: 10, b.py: 2}`, `loc = {a.py: 50, b.py: 20}` the entry for
`a.py` has the maximum revision count of the whole revision map and indeed
gets `normalizedRevisions = 1`. -/
theorem claim_C1_witness :
    (⟨"a.py".data, 10, 50, 1, 1, none, none, none, none, none⟩ : Entry).norm_revisions
      = 1 := by
  refine claim_C1_amended [("a.py".data, 10), ("b.py".data, 2)]
    [("a.py".data, 50), ("b.py".data, 20)] none none
    [⟨"a.py".data, 10, 50, 1, 1, none, none, none, none, none⟩,
     ⟨"b.py".data, 2, 20, 13/50, 1/5, none, none, none, none, none⟩]
    ⟨"a.py".data, 10, 50, 1, 1, none, none, none, none, none⟩
    ?_ (by simp) (by simp [maxVals])
  simp only [calculate_hotspots, qualifyingFiles, maxOrOne, mkEntry, maxVals,
      List.map, List.filterMap, List.lookup, List.isEmpty, pySortDesc, insDesc,
      pyRound4, roundHalfEven]
  norm_num

/-- C3: every scored entry's `hotspot_score` is
`0.7 * normRevisions + 0.3 * normLoc` rounded to 4 decimal places; the output
is sorted descending by `hotspot_score`; and on
`revisions = {a.py: 10, b.py: 2}`, `loc = {a.py: 50, b.py: 20}` the entry for
`a.py` gets `normRevisions = 1.0` and score `1.0`, the entry for `b.py` gets
`normRevisions = 0.2 (= 1/5)`, `normLoc = 0.4`, score `0.26 (= 13/50)`, and
the output order is `[a.py, b.py]`. -/
theorem claim_C3 :
    (∀ (revs loc : List (PyStr × Int)) churn authors (hs : List Entry),
      calculate_hotspots revs loc churn authors = some hs →
      ∀ e ∈ hs, ∃ r l, List.lookup e.file revs = some r ∧
        List.lookup e.file loc = some l ∧
        e.hotspot_score =
          pyRound4 (((r : ℚ) / (maxOrOne revs : ℚ)) * (7 / 10) +
            ((l : ℚ) / (maxOrOne loc : ℚ)) * (3 / 10)) ∧
        e.norm_revisions = pyRound4 ((r : ℚ) / (maxOrOne revs : ℚ))) ∧
    (∀ (revs loc : List (PyStr × Int)) churn authors (hs : List Entry),
      calculate_hotspots revs loc churn authors = some hs →
      hs.Pairwise (fun a b => b.hotspot_score ≤ a.hotspot_score)) ∧
    (calculate_hotspots [("a.py".data, 10), ("b.py".data, 2)]
        [("a.py".data, 50), ("b.py".data, 20)] none none =
      some [⟨"a.py".data, 10, 50, 1, 1, none, none, none, none, none⟩,
            ⟨"b.py".data, 2, 20, 13/50, 1/5, none, none, none, none, none⟩]) := by
  refine ⟨?_, ?_, ?_⟩
  · intro revs loc churn authors hs h e he
    obtain ⟨q, hq, rfl⟩ := (mem_calculate_hotspots h).mp he
    obtain ⟨-, hr, hl, -⟩ := mem_qualifyingFiles.mp hq
    exact ⟨q.2.1, q.2.2, by simpa using hr, by simpa using hl, rfl, rfl⟩
  · intro revs loc churn authors hs h
    unfold calculate_hotspots at h
    split at h
    · exact absurd h (by simp)
    · simp only [Option.some.injEq] at h
      exact h ▸ pySortDesc_sorted _
  · simp only [calculate_hotspots, qualifyingFiles, maxOrOne, mkEntry, maxVals,
        List.map, List.filterMap, List.lookup, List.isEmpty, pySortDesc, insDesc,
        pyRound4, roundHalfEven]
    norm_num

/-- C3 witness: the formula-and-order parts applied to the concrete example
give that the produced list is sorted descending by score. -/
theorem claim_C3_witness :
    ([(⟨"a.py".data, 10, 50, 1, 1, none, none, none, none, none⟩ : Entry),
      ⟨"b.py".data, 2, 20, 13/50, 1/5, none, none, none, none, none⟩]).Pairwise
      (fun a b => b.hotspot_score ≤ a.hotspot_score) :=
  claim_C3.2.1 [("a.py".data, 10), ("b.py".data, 2)]
    [("a.py".data, 50), ("b.py".data, 20)] none none _ claim_C3.2.2

/-- C4 counterexample: the claim's three-rule characterization applies rule 3
(segment matching) to every path, but the code only enters the segment loop
when the path contains a `/`.  For the single-segment path `node_modules` and
pattern `node_modules/*`, rule 3 matches (the lone segment equals the pattern
with its trailing `/*` stripped), so the spec predicate holds — yet
`should_exclude` returns `false`. -/
theorem claim_C4_counterexample :
    should_exclude "node_modules".data ["node_modules/*".data] = false ∧
    specExcluded "node_modules".data ["node_modules/*".data] := by
  constructor
  · simp [should_exclude, fnmatch, tokenize, globMatch, parseBracket, findClose,
          segmentHits, pyLower, pyRstripSlashStar, splitChar, joinChar, Char.toLower]
  · refine ⟨"node_modules/*".data, by simp, Or.inr (Or.inr ⟨0, ?_, Or.inl ?_⟩)⟩
    · simp [pyLower, splitChar, Char.toLower]
    · simp [fnmatch, tokenize, globMatch, parseBracket, findClose,
            pyLower, pyRstripSlashStar, splitChar, Char.toLower]

/-- C4 (amended): `should_exclude(path, patterns)` returns true iff some
pattern matches the (case-insensitively compared) path under rule 1 (full
path as a glob), rule 2 (full path implicitly prefixed with `*/`), or — only
when the path contains a `/` separator — rule 3 (at some path-segment split
point, the single segment matches the pattern with trailing `/*` stripped, or
the suffix of the path starting at that segment matches the pattern as a
glob).  In particular, pattern `node_modules/*` excludes `node_modules/foo.js`
and `src/node_modules/foo.js` but not `my_node_modules_backup/foo.js`. -/
theorem claim_C4_amended :
    (∀ (fp : PyStr) (pats : List PyStr),
      should_exclude fp pats = true ↔ specExcludedAmended fp pats) ∧
    should_exclude "node_modules/foo.js".data ["node_modules/*".data] = true ∧
    should_exclude "src/node_modules/foo.js".data ["node_modules/*".data] = true ∧
    should_exclude "my_node_modules_backup/foo.js".data ["node_modules/*".data]
      = false := by
  refine ⟨should_exclude_iff_amended, ?_, ?_, ?_⟩ <;>
    simp [should_exclude, fnmatch, tokenize, globMatch, parseBracket, findClose,
          segmentHits, pyLower, pyRstripSlashStar, splitChar, joinChar, Char.toLower]

@[simp] theorem childLeafRecs_nil : childLeafRecs .nil = [] := by rw [childLeafRecs]

/-- C5: for every leaf in the tree the Hierarchy Builder produces from any
hotspot entry list, joining the names of its ancestor directory nodes below
the root together with the leaf's own name, separated by `/`, reconstructs
exactly the original file path key of the entry the leaf was built from (the
leaf's `fullPath`, which is the `file` key of some input entry). -/
theorem claim_C5 (hs : List Entry) (nm : PyStr) (ch : HChildren)
    (h : build_hierarchy hs = some (.dir nm ch)) :
    ∀ r ∈ childLeafRecs ch,
      joinChar '/' (r.1 ++ [r.2.1]) = r.2.2 ∧ ∃ e ∈ hs, e.file = r.2.2 := by
  unfold build_hierarchy at h
  rw [Option.map_eq_some'] at h
  obtain ⟨ch0, hfold, heq⟩ := h
  have hch : ch0 = ch := by
    injection heq with _ h2
  subst hch
  exact (@buildFold hs hs (fun _ he => he) HChildren.nil _ trivial (by simp) hfold).2

/-- C5 witness: building from the single entry for `src/a.py` produces one
leaf, whose ancestor names `[src]` plus its own name `a.py` join back to
`src/a.py`, the original key. -/
theorem claim_C5_witness :
    joinChar '/' (["src".data] ++ ["a.py".data]) = "src/a.py".data ∧
    ∃ e ∈ [(⟨"src/a.py".data, 3, 20, 1, 1, none, none, none, none, none⟩ : Entry)],
      e.file = "src/a.py".data := by
  refine claim_C5 [⟨"src/a.py".data, 3, 20, 1, 1, none, none, none, none, none⟩]
    "root".data
    (.cons "src".data
      (.dir "src".data
        (.cons "a.py".data
          (.file "a.py".data "src/a.py".data 20 3 1 1 none none none) .nil)) .nil)
    rfl (["src".data], "a.py".data, "src/a.py".data) ?_
  simp [childLeafRecs, nodeLeafRecs]

theorem commitLines_dead (excl : List PyStr) :
    ∀ (mid : List PyStr), (∀ x ∈ mid, ¬ isGoodMarker (pyStrip x)) →
      ∀ (M : List (PyStr × List Commit)),
        List.foldl (commitLine excl) ⟨M, none⟩ mid = ⟨M, none⟩ := by
  intro mid
  induction mid with
  | nil => intro _ M; rfl
  | cons x rest ih =>
    intro hmid M
    have hx := hmid x (by simp)
    have hstep : commitLine excl ⟨M, none⟩ x = ⟨M, none⟩ := by
      by_cases h0 : pyStrip x = []
      · simp [commitLine, h0]
      · by_cases hpre : "COMMIT:".data.isPrefixOf (pyStrip x)
        · have hlen : ¬(4 ≤ (pySplitMax '|' 3 ((pyStrip x).drop 7)).length) :=
            fun hl => hx ⟨hpre, hl⟩
          simp [commitLine, h0, hpre, hlen]
        · simp [commitLine, h0, hpre]
    rw [List.foldl_cons, hstep]
    exact ih (fun y hy => hmid y (by simp [hy])) M

/-- C7: a `COMMIT:` marker line whose payload splits into fewer than 4
`|`-separated fields is skipped (the model is a total function, so nothing is
raised), and every line that follows it up to the next well-formed marker
line contributes nothing to the per-file commit lists: the accumulated
`file_commits` map after such a block equals the map after the preceding
lines alone. -/
theorem claim_C7 (excl : List PyStr) (pre mid : List PyStr) (m : PyStr)
    (hm1 : "COMMIT:".data.isPrefixOf (pyStrip m) = true)
    (hm2 : (pySplitMax '|' 3 ((pyStrip m).drop 7)).length < 4)
    (hmid : ∀ x ∈ mid, ¬ isGoodMarker (pyStrip x)) :
    (runCommitLines excl (pre ++ m :: mid)).file_commits =
      (runCommitLines excl pre).file_commits := by
  unfold runCommitLines
  rw [List.foldl_append, List.foldl_cons]
  have hline : pyStrip m ≠ [] := by
    intro h0
    rw [h0] at hm1
    simp [List.isPrefixOf] at hm1
  have hlen : ¬(4 ≤ (pySplitMax '|' 3 ((pyStrip m).drop 7)).length) := by omega
  have hstep : commitLine excl (List.foldl (commitLine excl) ⟨[], none⟩ pre) m =
      ⟨(List.foldl (commitLine excl) ⟨[], none⟩ pre).file_commits, none⟩ := by
    simp [commitLine, hline, hm1, hlen]
  rw [hstep, commitLines_dead excl mid hmid]

/-- C7 witness: after a well-formed marker and its file line, a 2-field
marker `COMMIT:h2|a2` and the file line `g.py` following it leave the
accumulated map unchanged. -/
theorem claim_C7_witness :
    ("COMMIT:".data.isPrefixOf (pyStrip "COMMIT:h2|a2".data) = true) ∧
    ((pySplitMax '|' 3 ((pyStrip "COMMIT:h2|a2".data).drop 7)).length < 4) ∧
    (runCommitLines []
        ["COMMIT:h|a|d|m".data, "f.py".data, "COMMIT:h2|a2".data, "g.py".data]).file_commits =
      (runCommitLines [] ["COMMIT:h|a|d|m".data, "f.py".data]).file_commits := by
  refine ⟨by decide, by decide, ?_⟩
  exact claim_C7 [] ["COMMIT:h|a|d|m".data, "f.py".data] ["g.py".data]
    "COMMIT:h2|a2".data (by decide) (by decide)
    (by intro x hx; fin_cases hx; decide)

/-- C6 (divergence at the failing input): the numstat line `5<TAB>x<TAB>foo.py`
has a non-numeric `deleted` field, so per the claim the whole record should be
skipped and the churn map left exactly as if the line were absent (empty
here).  Instead the code has already created `foo.py`'s defaultdict entry and
committed `added += 5` before `int('x')` raises, so the map comes out as
`{foo.py: {added: 5, deleted: 0}}`.  The second conjunct shows the claim's
correct part: `-` fields are treated as zero.  The third states the
divergence: the map is not what it would be had the line been absent. -/
theorem claim_C6_divergence :
    get_churn_data "5\tx\tfoo.py".data [] = [("foo.py".data, ⟨5, 0⟩)] ∧
    get_churn_data "-\t-\tfoo.py".data [] = [("foo.py".data, ⟨0, 0⟩)] ∧
    get_churn_data "5\tx\tfoo.py".data [] ≠ get_churn_data [] [] := by
  refine ⟨by decide, by decide, by decide⟩

/-- C9: the cache validity check reports a stored result valid iff both the
stored head-commit identifier equals the current one and the stored commit
count equals the current one; a mismatch in either makes it invalid. -/
theorem claim_C9 (current_head cached_head current_count cached_count : Option PyStr) :
    cache_is_valid current_head cached_head current_count cached_count = true ↔
      current_head = cached_head ∧ current_count = cached_count := by
  simp [cache_is_valid]

theorem lookup_incrKey_none {m : List (PyStr × Int)} {k f : PyStr}
    (hne : k ≠ f) (h : List.lookup f m = none) :
    List.lookup f (incrKey m k) = none := by
  have hbeqk : (f == k) = false := beq_eq_false_iff_ne.mpr (Ne.symm hne)
  induction m with
  | nil => simp [incrKey, List.lookup, hbeqk]
  | cons p t ih =>
    obtain ⟨k', v⟩ := p
    by_cases hfk : (f == k') = true
    · rw [List.lookup, hfk] at h
      simp at h
    · have hfkf : (f == k') = false := by simpa using hfk
      rw [List.lookup, hfkf] at h
      by_cases hk : k' = k
      · subst hk
        simp only [incrKey, if_pos rfl]
        simp only [List.lookup, hfkf]
        exact h
      · simp only [incrKey, if_neg hk]
        simp only [List.lookup, hfkf]
        exact ih h

/-- C10 (implicit): revision-frequency extraction never counts any log line
that starts with `commit`, so a file whose repository-relative path begins
with `commit` is absent from the resulting revision map for every input and
every exclusion list, even when it is listed in the log output and no
exclusion pattern matches it. -/
theorem claim_C10 (output : PyStr) (exclusions : List PyStr) (f : PyStr)
    (hf : "commit".data.isPrefixOf f = true) :
    List.lookup f (get_revision_frequency output exclusions) = none := by
  unfold get_revision_frequency
  have : ∀ (lines : List PyStr) (m : List (PyStr × Int)),
      List.lookup f m = none →
      List.lookup f (List.foldl
        (fun file_revisions rawLine =>
          let line := pyStrip rawLine
          if line ≠ [] ∧ ¬("commit".data.isPrefixOf line) ∧
              ¬(should_exclude line exclusions) then
            incrKey file_revisions line
          else file_revisions)
        m lines) = none := by
    intro lines
    induction lines with
    | nil => intro m hm; exact hm
    | cons x rest ih =>
      intro m hm
      rw [List.foldl_cons]
      apply ih
      show List.lookup f
        (if pyStrip x ≠ [] ∧ ¬"commit".data.isPrefixOf (pyStrip x) = true ∧
            ¬should_exclude (pyStrip x) exclusions = true then
          incrKey m (pyStrip x)
        else m) = none
      split
      · rename_i hcond
        refine lookup_incrKey_none ?_ hm
        intro hxf
        exact hcond.2.1 (by rw [hxf]; exact hf)
      · exact hm
  exact this _ [] rfl

/-- C10 witness: `commit_utils.py` starts with `commit`, and even when the
log output lists exactly that file, the resulting revision map has no entry
for it. -/
theorem claim_C10_witness :
    ("commit".data.isPrefixOf "commit_utils.py".data = true) ∧
    List.lookup "commit_utils.py".data
      (get_revision_frequency "commit_utils.py".data []) = none :=
  ⟨by decide, claim_C10 "commit_utils.py".data [] "commit_utils.py".data (by decide)⟩
